import Mathlib

/-!
# SimpleEncryption (src/main.cpp)

A shallow embedding of the class `SimpleEncryption` of `src/main.cpp` and the
properties of its three operations `encrypt`, `decrypt` and `check`.

Modelling conventions.

* A `std::string` is a `List Nat`; a `char` is the value of its bit pattern,
  a natural number below 256, whether `char` is signed or not. Arithmetic on
  `char` is written with an explicit `% 256`, arithmetic on `unsigned int`
  with an explicit `% 2 ^ 32`.
* `unsigned int` is 4 bytes wide and is stored least significant byte first
  (the byte order of the example in the specification).
* The two calls of `rand()` in `encrypt` are the parameters `rand1`, `rand2`.
* A `std::string` of size `n` stores `n + 1` characters, the last one the
  null terminator: `s[n]` may be read, and written with the null character
  only.
* An operation returns `Except Fault _`. The source contains no `throw`:
  the only fault the embedding produces is `Fault.OutOfRange`, which marks the
  point where the execution leaves the range of a `std::string`.
-/

deriving instance DecidableEq for Except

namespace SimpleEncryption

/-- Ways in which a call can end without a value. `InvalidKey` and
`MalformedMessage` are the fault kinds named by the specification; the source
never raises them. `OutOfRange` marks an execution that indexes a
`std::string` beyond its terminator, overwrites the terminator with another
character, or forms an iterator past its end: the behaviour of the program is
undefined from there on. -/
inductive Fault
  | InvalidKey
  | MalformedMessage
  | OutOfRange
  deriving DecidableEq, Repr

/-- `s[pos]` on a `const std::string&` (the password): the character at `pos`,
the null character when `pos == s.size()`, out of range beyond. -/
def constAt (s : List Nat) (pos : Nat) : Except Fault Nat :=
  if pos < s.length then .ok (s.getD pos 0)
  else if pos = s.length then .ok 0
  else .error .OutOfRange

/-- The value of `s[pos]` on a mutable `std::string`, read by `+=` or `-=`:
the character at `pos`, the null terminator when `pos == s.size()`, out of
range beyond. -/
def charAt (s : List Nat) (pos : Nat) : Except Fault Nat :=
  if pos < s.length then .ok (s.getD pos 0)
  else if pos = s.length then .ok 0
  else .error .OutOfRange

/-- The store `s[pos] = v` that ends `+=` or `-=`: a position below `s.size()`
takes any character; the terminator at `pos == s.size()` may be written with
the null character only, which leaves the string as it is. -/
def storeAt (s : List Nat) (pos v : Nat) : Except Fault (List Nat) :=
  if pos < s.length then .ok (s.set pos v)
  else if pos = s.length ∧ v = 0 then .ok s
  else .error .OutOfRange

/-- `x += k` on `char`: 8-bit wraparound addition. -/
def addChar (x k : Nat) : Nat := (x + k) % 256

/-- `x -= k` on `char`: 8-bit wraparound subtraction. -/
def subChar (x k : Nat) : Nat := (x + (256 - k % 256)) % 256

/-- One iteration of a shift loop (lines 93-97, 112-116, 136-140, 156-160):
`buf[i] op= PASSWORD[passwordIndex]; passwordIndex++;
 if (passwordIndex == PASSWORD.size()) passwordIndex = 0;`
Returns the buffer and the new `passwordIndex`. -/
def shiftStep (op : Nat → Nat → Nat) (PASSWORD buf : List Nat) (i passwordIndex : Nat) :
    Except Fault (List Nat × Nat) :=
  match constAt PASSWORD passwordIndex with
  | .error f => .error f
  | .ok k =>
    match charAt buf i with
    | .error f => .error f
    | .ok x =>
      match storeAt buf i (op x k) with
      | .error f => .error f
      | .ok buf =>
        let passwordIndex := passwordIndex + 1
        .ok (buf, if passwordIndex = PASSWORD.length then 0 else passwordIndex)

/-- The loop `for (; i < END; i++) { ... }` around `shiftStep`; the first
argument is the number `END - i` of iterations still to run. -/
def shiftLoop (op : Nat → Nat → Nat) (PASSWORD : List Nat) :
    Nat → List Nat → Nat → Nat → Except Fault (List Nat × Nat)
  | 0, buf, _, passwordIndex => .ok (buf, passwordIndex)
  | n + 1, buf, i, passwordIndex =>
    match shiftStep op PASSWORD buf i passwordIndex with
    | .error f => .error f
    | .ok (buf, passwordIndex) => shiftLoop op PASSWORD n buf (i + 1) passwordIndex

/-- The record `struct Header { unsigned int a, b, c; }`. -/
structure Header where
  a : Nat
  b : Nat
  c : Nat
  deriving DecidableEq, Repr

/-- The constructor `Header(a, b) : a(a), b(b), c(a * b)` on `unsigned int`. -/
def Header.new (a b : Nat) : Header :=
  { a := a % 2 ^ 32, b := b % 2 ^ 32, c := (a % 2 ^ 32 * (b % 2 ^ 32)) % 2 ^ 32 }

/-- The four bytes of an `unsigned int` in memory, least significant first. -/
def uintBytes (x : Nat) : List Nat :=
  [x % 256, x / 256 % 256, x / 65536 % 256, x / 16777216 % 256]

/-- The 12 bytes `Header::toString` returns: `a`, `b`, `c` written at offsets 0, 4, 8. -/
def Header.toString (h : Header) : List Nat :=
  uintBytes h.a ++ uintBytes h.b ++ uintBytes h.c

/-- The `unsigned int` whose four bytes are `buf[off] .. buf[off + 3]`, least
significant first. -/
def uintAt (buf : List Nat) (off : Nat) : Nat :=
  buf.getD off 0 + 256 * buf.getD (off + 1) 0 + 65536 * buf.getD (off + 2) 0
    + 16777216 * buf.getD (off + 3) 0

/-- The read `*reinterpret_cast<unsigned int*>(&buf[off])`: four stored
characters from `off` on, of which the last may be the terminator (read as 0
by `uintAt`). -/
def readUInt (buf : List Nat) (off : Nat) : Except Fault Nat :=
  if off + 4 ≤ buf.length + 1 then .ok (uintAt buf off) else .error .OutOfRange

/-- The string `std::string(s.begin() + 12U, s.end())`. -/
def dropHeader (s : List Nat) : Except Fault (List Nat) :=
  if 12 ≤ s.length then .ok (s.drop 12) else .error .OutOfRange

/-- The method `SimpleEncryption::encrypt` (lines 79-101). -/
def encrypt (input PASSWORD : List Nat) (rand1 rand2 : Nat) : Except Fault (List Nat) :=
  let HEADER := Header.new (rand1 % (1 <<< 16)) (rand2 % (1 <<< 16))
  let input := HEADER.toString ++ input
  let INPUT_SIZE := input.length
  match shiftLoop addChar PASSWORD INPUT_SIZE input 0 0 with
  | .error f => .error f
  | .ok (input, _) => .ok input

/-- The method `SimpleEncryption::decrypt` (lines 103-121). -/
def decrypt (encrypted PASSWORD : List Nat) : Except Fault (List Nat) :=
  let ENCRYPTED_SIZE := encrypted.length
  match shiftLoop subChar PASSWORD ENCRYPTED_SIZE encrypted 0 0 with
  | .error f => .error f
  | .ok (encrypted, _) => dropHeader encrypted

/-- The method `SimpleEncryption::check` (lines 124-164). -/
def check (encrypted PASSWORD : List Nat) : Except Fault (Bool × List Nat) :=
  let ENCRYPTED_SIZE := encrypted.length
  match shiftLoop subChar PASSWORD 12 encrypted 0 0 with
  | .error f => .error f
  | .ok (encrypted, passwordIndex) =>
    match readUInt encrypted 0, readUInt encrypted 4, readUInt encrypted 8 with
    | .ok A, .ok B, .ok C =>
      if (A * B) % 2 ^ 32 ≠ C then .ok (false, [])
      else
        match shiftLoop subChar PASSWORD (ENCRYPTED_SIZE - 12) encrypted 12 passwordIndex with
        | .error f => .error f
        | .ok (encrypted, _) =>
          match dropHeader encrypted with
          | .error f => .error f
          | .ok s => .ok (true, s)
    | _, _, _ => .error .OutOfRange

/-- The shift loop of `encrypt` on its own (lines 88-98): the adding pass over
a whole buffer, `passwordIndex` starting at 0. -/
def encryptShift (input PASSWORD : List Nat) : Except Fault (List Nat) :=
  match shiftLoop addChar PASSWORD input.length input 0 0 with
  | .error f => .error f
  | .ok (input, _) => .ok input

/-- The shift loop of `decrypt` on its own (lines 107-117): the subtracting
pass over a whole buffer, `passwordIndex` starting at 0. -/
def decryptShift (encrypted PASSWORD : List Nat) : Except Fault (List Nat) :=
  match shiftLoop subChar PASSWORD encrypted.length encrypted 0 0 with
  | .error f => .error f
  | .ok (encrypted, _) => .ok encrypted

/-- Closed form of a shift loop: the buffer in which every position `j` with
`i ≤ j < i + n` holds `op buf[j] PASSWORD[j mod PASSWORD.size()]` and every
other position is unchanged. -/
def shifted (op : Nat → Nat → Nat) (PASSWORD buf : List Nat) (i n : Nat) : List Nat :=
  (List.range buf.length).map fun j =>
    if i ≤ j ∧ j < i + n then op (buf.getD j 0) (PASSWORD.getD (j % PASSWORD.length) 0)
    else buf.getD j 0

/-! ## The vocabulary of the specification -/

/-- The value `(x - k) mod 256` of the specification's decode direction,
computed in the integers. -/
def spec_decodeByte (x k : Nat) : Nat := (((x : Int) - (k : Int)) % 256).toNat

/-- Byte `i` of the message `e` after subtracting the cyclic password byte
`p[i mod len(p)]`, the password cycle starting at index 0 for byte 0. -/
def spec_decoded (e p : List Nat) (i : Nat) : Nat :=
  spec_decodeByte (e.getD i 0) (p.getD (i % p.length) 0)

/-- The `k`-th 32-bit unsigned integer (`k = 0, 1, 2` for `A`, `B`, `C`) read
from the first 12 bytes of `e` after subtracting the cyclic password bytes. -/
def spec_headerWord (e p : List Nat) (k : Nat) : Nat :=
  spec_decoded e p (4 * k) + 256 * spec_decoded e p (4 * k + 1)
    + 65536 * spec_decoded e p (4 * k + 2) + 16777216 * spec_decoded e p (4 * k + 3)

/-- The arithmetic relation of the decoded header, `A * B == C` in 32-bit
wraparound arithmetic. -/
def spec_headerValid (e p : List Nat) : Prop :=
  (spec_headerWord e p 0 * spec_headerWord e p 1) % 2 ^ 32 = spec_headerWord e p 2

instance (e p : List Nat) : Decidable (spec_headerValid e p) := by
  unfold spec_headerValid
  infer_instance

/-- The pre-cipher buffer of the specification: the 4-byte encodings of `a`,
`b` and `a * b`, least significant byte first, followed by the message. -/
def spec_preCipher (m : List Nat) (a b : Nat) : List Nat :=
  uintBytes a ++ uintBytes b ++ uintBytes (a * b) ++ m

/-- The password `p` repeated `k` times. -/
def spec_repeat (p : List Nat) : Nat → List Nat
  | 0 => []
  | k + 1 => p ++ spec_repeat p k

/-! ## Lemmas on the shift loop -/

theorem ext_getD {l₁ l₂ : List Nat} (hlen : l₁.length = l₂.length)
    (h : ∀ j, j < l₁.length → l₁.getD j 0 = l₂.getD j 0) : l₁ = l₂ := by
  apply List.ext_getElem hlen
  intro j h₁ h₂
  have := h j h₁
  simpa [List.getD_eq_getElem?_getD, List.getElem?_eq_getElem h₁, List.getElem?_eq_getElem h₂]
    using this

theorem length_shifted (op : Nat → Nat → Nat) (P buf : List Nat) (i n : Nat) :
    (shifted op P buf i n).length = buf.length := by
  simp [shifted]

theorem getD_shifted (op : Nat → Nat → Nat) (P buf : List Nat) (i n j : Nat)
    (hj : j < buf.length) :
    (shifted op P buf i n).getD j 0 =
      if i ≤ j ∧ j < i + n then op (buf.getD j 0) (P.getD (j % P.length) 0)
      else buf.getD j 0 := by
  simp [shifted, List.getD_eq_getElem?_getD, List.getElem?_map, List.getElem?_range hj]

theorem shiftStep_ok (op : Nat → Nat → Nat) (P buf : List Nat) (i : Nat)
    (hP : 0 < P.length) (hi : i < buf.length) :
    shiftStep op P buf i (i % P.length) =
      .ok (buf.set i (op (buf.getD i 0) (P.getD (i % P.length) 0)), (i + 1) % P.length) := by
  have hlt : i % P.length < P.length := Nat.mod_lt _ hP
  have key : (i + 1) % P.length = (i % P.length + 1) % P.length := by
    rw [Nat.add_mod i 1, Nat.add_mod (i % P.length) 1, Nat.mod_mod]
  have hnext : ∀ r, r < P.length →
      (if r + 1 = P.length then 0 else r + 1) = (r + 1) % P.length := by
    intro r hr
    split
    · rename_i h
      rw [h, Nat.mod_self]
    · rename_i h
      exact (Nat.mod_eq_of_lt (by omega)).symm
  rw [key, ← hnext _ hlt]
  simp only [shiftStep, constAt, charAt, storeAt, hlt, hi, if_true]

theorem shiftLoop_eq (op : Nat → Nat → Nat) (P : List Nat) (hP : 0 < P.length) :
    ∀ (n : Nat) (buf : List Nat) (i : Nat), i + n ≤ buf.length →
      shiftLoop op P n buf i (i % P.length) =
        .ok (shifted op P buf i n, (i + n) % P.length) := by
  intro n
  induction n with
  | zero =>
    intro buf i _
    simp only [shiftLoop, Nat.add_zero]
    congr 2
    apply ext_getD (length_shifted _ _ _ _ _).symm
    intro j hj
    rw [getD_shifted _ _ _ _ _ _ hj, if_neg (by omega)]
  | succ n ih =>
    intro buf i hin
    simp only [shiftLoop]
    rw [shiftStep_ok op P buf i hP (by omega)]
    simp only
    rw [ih _ _ (by simp; omega)]
    congr 2
    · apply ext_getD
      · simp [length_shifted]
      · intro j hj
        rw [length_shifted, List.length_set] at hj
        rw [getD_shifted _ _ _ _ _ _ (by simpa using hj), getD_shifted _ _ _ _ _ _ hj]
        by_cases hji : j = i
        · subst hji
          simp [List.getD_eq_getElem?_getD, List.getElem?_set, hj]
        · have hne : i ≠ j := fun h => hji h.symm
          simp only [List.getD_eq_getElem?_getD, List.getElem?_set_ne hne]
          by_cases h1 : i + 1 ≤ j ∧ j < i + 1 + n
          · have h2 : i ≤ j ∧ j < i + (n + 1) := by omega
            simp [h1, h2]
          · have h2 : ¬ (i ≤ j ∧ j < i + (n + 1)) := by omega
            simp [h1, h2]
    · congr 1; omega

theorem shiftLoop_split (op : Nat → Nat → Nat) (P : List Nat) :
    ∀ (t s : Nat) (buf : List Nat) (i q : Nat),
      shiftLoop op P (t + s) buf i q =
        match shiftLoop op P t buf i q with
        | .error f => .error f
        | .ok (b, r) => shiftLoop op P s b (i + t) r := by
  intro t
  induction t with
  | zero =>
    intro s buf i q
    simp only [Nat.zero_add, shiftLoop, Nat.add_zero]
  | succ t ih =>
    intro s buf i q
    rw [show t + 1 + s = (t + s) + 1 by omega]
    simp only [shiftLoop]
    cases h : shiftStep op P buf i q with
    | error f => rfl
    | ok r =>
      obtain ⟨b, r'⟩ := r
      simp only
      rw [ih, show i + 1 + t = i + (t + 1) by omega]

/-! ## Closed forms of the three operations -/

theorem shiftLoop_zero_eq (op : Nat → Nat → Nat) (P : List Nat) (hP : 0 < P.length)
    (n : Nat) (buf : List Nat) (hn : n ≤ buf.length) :
    shiftLoop op P n buf 0 0 = .ok (shifted op P buf 0 n, n % P.length) := by
  have h := shiftLoop_eq op P hP n buf 0 (by omega)
  rw [Nat.zero_mod, Nat.zero_add] at h
  exact h

theorem encryptShift_eq (x P : List Nat) (hP : 0 < P.length) :
    encryptShift x P = .ok (shifted addChar P x 0 x.length) := by
  simp only [encryptShift, shiftLoop_zero_eq addChar P hP x.length x (Nat.le_refl _)]

theorem decryptShift_eq (x P : List Nat) (hP : 0 < P.length) :
    decryptShift x P = .ok (shifted subChar P x 0 x.length) := by
  simp only [decryptShift, shiftLoop_zero_eq subChar P hP x.length x (Nat.le_refl _)]

theorem encrypt_eq (m P : List Nat) (r₁ r₂ : Nat) (hP : 0 < P.length) :
    encrypt m P r₁ r₂ =
      .ok (shifted addChar P ((Header.new (r₁ % 65536) (r₂ % 65536)).toString ++ m) 0
        (12 + m.length)) := by
  have hlen : ((Header.new (r₁ % 65536) (r₂ % 65536)).toString ++ m).length
      = 12 + m.length := by
    simp only [Header.toString, uintBytes, List.length_append, List.length_cons,
      List.length_nil]
  have h := shiftLoop_zero_eq addChar P hP (12 + m.length)
    ((Header.new (r₁ % 65536) (r₂ % 65536)).toString ++ m) (by omega)
  have e16 : (1 <<< 16 : Nat) = 65536 := by decide
  simp only [encrypt, e16, hlen, h]

theorem decrypt_eq (e P : List Nat) (hP : 0 < P.length) (he : 12 ≤ e.length) :
    decrypt e P = .ok ((shifted subChar P e 0 e.length).drop 12) := by
  have h := shiftLoop_zero_eq subChar P hP e.length e (Nat.le_refl _)
  simp only [decrypt, h, dropHeader, length_shifted, he, if_true]

theorem shifted_shifted (op : Nat → Nat → Nat) (P e : List Nat) (k : Nat)
    (hk : k ≤ e.length) :
    shifted op P (shifted op P e 0 k) k (e.length - k) = shifted op P e 0 e.length := by
  apply ext_getD
  · simp [length_shifted]
  · intro j hj
    simp only [length_shifted] at hj
    rw [getD_shifted _ _ _ _ _ _ (by simpa [length_shifted] using hj),
      getD_shifted _ _ _ _ _ _ hj, getD_shifted _ _ _ _ _ _ hj]
    by_cases h1 : j < k
    · rw [if_neg (by omega), if_pos (by omega), if_pos (by omega)]
    · rw [if_pos (by omega), if_neg (by omega), if_pos (by omega)]

theorem check_eq (e P : List Nat) (hP : 0 < P.length) (he : 12 ≤ e.length) :
    check e P =
      if (uintAt (shifted subChar P e 0 12) 0 * uintAt (shifted subChar P e 0 12) 4) % 2 ^ 32
          ≠ uintAt (shifted subChar P e 0 12) 8
      then .ok (false, [])
      else .ok (true, (shifted subChar P e 0 e.length).drop 12) := by
  have h1 := shiftLoop_zero_eq subChar P hP 12 e he
  have h2 := shiftLoop_eq subChar P hP (e.length - 12) (shifted subChar P e 0 12) 12
    (by rw [length_shifted]; omega)
  rw [shifted_shifted subChar P e 12 he] at h2
  have hl : 12 ≤ (shifted subChar P e 0 e.length).length := by rw [length_shifted]; exact he
  have r0 : 0 + 4 ≤ (shifted subChar P e 0 12).length + 1 := by rw [length_shifted]; omega
  have r4 : 4 + 4 ≤ (shifted subChar P e 0 12).length + 1 := by rw [length_shifted]; omega
  have r8 : 8 + 4 ≤ (shifted subChar P e 0 12).length + 1 := by rw [length_shifted]; omega
  simp only [check, h1, readUInt, r0, r4, r8, if_true, h2, dropHeader, hl]

/-! ## Pointwise descriptions -/

theorem subChar_eq_spec (x k : Nat) : subChar x k = spec_decodeByte x k := by
  unfold subChar spec_decodeByte
  omega

theorem subChar_addChar (x k : Nat) (hx : x < 256) : subChar (addChar x k) k = x := by
  unfold subChar addChar
  omega

theorem addChar_subChar (x k : Nat) (hx : x < 256) : addChar (subChar x k) k = x := by
  unfold subChar addChar
  omega

theorem getD_shifted_all (op : Nat → Nat → Nat) (P e : List Nat) (j : Nat)
    (hj : j < e.length) :
    (shifted op P e 0 e.length).getD j 0 = op (e.getD j 0) (P.getD (j % P.length) 0) := by
  rw [getD_shifted _ _ _ _ _ _ hj, if_pos (by omega)]

theorem getD_lt_of_forall {l : List Nat} (h : ∀ x ∈ l, x < 256) (j : Nat) :
    l.getD j 0 < 256 := by
  rw [List.getD_eq_getElem?_getD]
  cases hj : l[j]? with
  | none => simp
  | some v => exact h v (List.getElem?_mem hj)

theorem shifted_sub_add (P x : List Nat) (hx : ∀ v ∈ x, v < 256) :
    shifted subChar P (shifted addChar P x 0 x.length) 0
      (shifted addChar P x 0 x.length).length = x := by
  apply ext_getD
  · simp [length_shifted]
  · intro j hj
    simp only [length_shifted] at hj
    rw [getD_shifted_all _ _ _ _ (by simpa [length_shifted] using hj),
      getD_shifted_all _ _ _ _ hj]
    exact subChar_addChar _ _ (getD_lt_of_forall hx j)

theorem shifted_add_sub (P x : List Nat) (hx : ∀ v ∈ x, v < 256) :
    shifted addChar P (shifted subChar P x 0 x.length) 0
      (shifted subChar P x 0 x.length).length = x := by
  apply ext_getD
  · simp [length_shifted]
  · intro j hj
    simp only [length_shifted] at hj
    rw [getD_shifted_all _ _ _ _ (by simpa [length_shifted] using hj),
      getD_shifted_all _ _ _ _ hj]
    exact addChar_subChar _ _ (getD_lt_of_forall hx j)

theorem length_headerString (h : Header) : h.toString.length = 12 := by
  simp only [Header.toString, uintBytes, List.length_append, List.length_cons,
    List.length_nil]

theorem headerString_lt (h : Header) : ∀ v ∈ h.toString, v < 256 := by
  intro v hv
  simp only [Header.toString, uintBytes, List.mem_append, List.mem_cons,
    List.mem_singleton, List.not_mem_nil, or_false] at hv
  omega

theorem uintBytes_sum (x : Nat) (hx : x < 2 ^ 32) :
    x % 256 + 256 * (x / 256 % 256) + 65536 * (x / 65536 % 256)
      + 16777216 * (x / 16777216 % 256) = x := by
  omega

theorem mul_draws_lt (a b : Nat) (ha : a < 65536) (hb : b < 65536) : a * b < 2 ^ 32 := by
  have := Nat.mul_lt_mul'' ha hb
  omega

theorem headerNew_eq (a b : Nat) (ha : a < 65536) (hb : b < 65536) :
    Header.new (a % 65536) (b % 65536) = { a := a, b := b, c := a * b } := by
  have h := mul_draws_lt a b ha hb
  have ha1 : a % 65536 % 2 ^ 32 = a := by omega
  have hb1 : b % 65536 % 2 ^ 32 = b := by omega
  simp only [Header.new, ha1, hb1, Nat.mod_eq_of_lt h]

theorem headerString_eq (m : List Nat) (a b : Nat) (ha : a < 65536) (hb : b < 65536) :
    (Header.new (a % 65536) (b % 65536)).toString ++ m = spec_preCipher m a b := by
  rw [headerNew_eq a b ha hb]
  rfl

theorem getElem?_of_getD {l : List Nat} {j v : Nat} (hj : j < l.length)
    (h : l.getD j 0 = v) : l[j]? = some v := by
  rw [List.getD_eq_getElem?_getD, List.getElem?_eq_getElem hj] at h
  rw [List.getElem?_eq_getElem hj]
  simpa using h

theorem length_preCipher (m : List Nat) (a b : Nat) :
    (spec_preCipher m a b).length = 12 + m.length := by
  simp only [spec_preCipher, uintBytes, List.length_append, List.length_cons,
    List.length_nil]

theorem preCipher_header_lt (m : List Nat) (a b i : Nat) (hi : i < 12) :
    (spec_preCipher m a b).getD i 0 < 256 := by
  interval_cases i <;> simp [spec_preCipher, uintBytes] <;> omega

theorem uintAt_preCipher (m : List Nat) (a b : Nat) (ha : a < 65536) (hb : b < 65536) :
    uintAt (spec_preCipher m a b) 0 = a ∧ uintAt (spec_preCipher m a b) 4 = b
      ∧ uintAt (spec_preCipher m a b) 8 = a * b := by
  have h := mul_draws_lt a b ha hb
  refine ⟨?_, ?_, ?_⟩
  · simp [uintAt, spec_preCipher, uintBytes]
    omega
  · simp [uintAt, spec_preCipher, uintBytes]
    omega
  · simp [uintAt, spec_preCipher, uintBytes]
    exact uintBytes_sum (a * b) h

theorem spec_decoded_shifted_add (P x : List Nat) (i : Nat) (hi : i < x.length)
    (hx : x.getD i 0 < 256) :
    spec_decoded (shifted addChar P x 0 x.length) P i = x.getD i 0 := by
  rw [spec_decoded, getD_shifted_all _ _ _ _ hi, ← subChar_eq_spec]
  exact subChar_addChar _ _ hx

theorem spec_headerWord_shifted_add (P x : List Nat) (k : Nat) (hk : 4 * k + 4 ≤ x.length)
    (hx : ∀ i, i < 4 * k + 4 → x.getD i 0 < 256) :
    spec_headerWord (shifted addChar P x 0 x.length) P k = uintAt x (4 * k) := by
  simp only [spec_headerWord, uintAt]
  rw [spec_decoded_shifted_add P x (4 * k) (by omega) (hx _ (by omega)),
    spec_decoded_shifted_add P x (4 * k + 1) (by omega) (hx _ (by omega)),
    spec_decoded_shifted_add P x (4 * k + 2) (by omega) (hx _ (by omega)),
    spec_decoded_shifted_add P x (4 * k + 3) (by omega) (hx _ (by omega))]

theorem uintAt_shifted_sub (P e : List Nat) (k : Nat) (hk : 4 * k + 4 ≤ 12)
    (he : 12 ≤ e.length) :
    uintAt (shifted subChar P e 0 12) (4 * k) = spec_headerWord e P k := by
  simp only [spec_headerWord, uintAt, spec_decoded, ← subChar_eq_spec]
  rw [getD_shifted _ _ _ _ _ _ (by omega), getD_shifted _ _ _ _ _ _ (by omega),
    getD_shifted _ _ _ _ _ _ (by omega), getD_shifted _ _ _ _ _ _ (by omega),
    if_pos (by omega), if_pos (by omega), if_pos (by omega), if_pos (by omega)]

theorem check_eq_spec (e P : List Nat) (hP : 0 < P.length) (he : 12 ≤ e.length) :
    check e P =
      if (spec_headerWord e P 0 * spec_headerWord e P 1) % 2 ^ 32 ≠ spec_headerWord e P 2
      then .ok (false, [])
      else .ok (true, (shifted subChar P e 0 e.length).drop 12) := by
  have h0 := uintAt_shifted_sub P e 0 (by omega) he
  have h1 := uintAt_shifted_sub P e 1 (by omega) he
  have h2 := uintAt_shifted_sub P e 2 (by omega) he
  rw [check_eq e P hP he]
  simp only [Nat.mul_zero, Nat.mul_one] at h0 h1
  rw [show (8 : Nat) = 4 * 2 from rfl, h0, h1, h2]

theorem check_of_valid (e P : List Nat) (hP : 0 < P.length) (he : 12 ≤ e.length)
    (hv : spec_headerValid e P) :
    check e P = .ok (true, (shifted subChar P e 0 e.length).drop 12) := by
  unfold spec_headerValid at hv
  rw [check_eq_spec e P hP he, if_neg (not_not.mpr hv)]

theorem check_of_not_valid (e P : List Nat) (hP : 0 < P.length) (he : 12 ≤ e.length)
    (hv : ¬ spec_headerValid e P) : check e P = .ok (false, []) := by
  unfold spec_headerValid at hv
  rw [check_eq_spec e P hP he, if_pos hv]

theorem getElem?_drop_shifted (P e : List Nat) (j : Nat) (hj : 12 + j < e.length) :
    ((shifted subChar P e 0 e.length).drop 12)[j]? = some (spec_decoded e P (12 + j)) := by
  rw [List.getElem?_drop]
  apply getElem?_of_getD (by rw [length_shifted]; exact hj)
  rw [getD_shifted_all _ _ _ _ hj, subChar_eq_spec]
  rfl

theorem charAt_error {s : List Nat} {pos : Nat} {f : Fault} (h : charAt s pos = .error f) :
    f = .OutOfRange := by
  unfold charAt at h
  split at h
  · simp at h
  · split at h
    · simp at h
    · simp only [Except.error.injEq] at h
      exact h.symm

theorem constAt_error {s : List Nat} {pos : Nat} {f : Fault}
    (h : constAt s pos = .error f) : f = .OutOfRange := by
  unfold constAt at h
  split at h
  · simp at h
  · split at h
    · simp at h
    · simp only [Except.error.injEq] at h
      exact h.symm

theorem storeAt_error {s : List Nat} {pos v : Nat} {f : Fault}
    (h : storeAt s pos v = .error f) : f = .OutOfRange := by
  unfold storeAt at h
  split at h
  · simp at h
  · split at h
    · simp at h
    · simp only [Except.error.injEq] at h
      exact h.symm

theorem shiftLoop_empty (op : Nat → Nat → Nat) (n : Nat) (buf : List Nat) :
    shiftLoop op [] (n + 2) buf 0 0 = .error .OutOfRange := by
  have h1 : ∀ b : List Nat, shiftLoop op [] (n + 1) b 1 1 = .error .OutOfRange := by
    intro b
    simp [shiftLoop, shiftStep, constAt]
  simp only [shiftLoop, shiftStep, constAt, List.length_nil, Nat.lt_irrefl, if_false, if_true]
  cases hc : charAt buf 0 with
  | error f => rw [charAt_error hc]
  | ok x =>
    simp only
    cases hs : storeAt buf 0 (op x 0) with
    | error f => rw [storeAt_error hs]
    | ok b =>
      simp only [Nat.zero_add, Nat.succ_ne_zero, if_false]
      exact h1 b

/-! ## Lemmas on buffers shorter than the header -/

theorem subChar_zero_iff (k : Nat) : subChar 0 k = 0 ↔ k % 256 = 0 := by
  unfold subChar
  omega

theorem shiftStep_beyond (op : Nat → Nat → Nat) (P buf : List Nat) (i q : Nat)
    (hi : buf.length < i) : shiftStep op P buf i q = .error .OutOfRange := by
  have h1 : ¬ i < buf.length := by omega
  have h2 : ¬ i = buf.length := by omega
  simp only [shiftStep, charAt, h1, h2, if_false]
  cases hc : constAt P q with
  | error f => rw [constAt_error hc]
  | ok k => rfl

theorem shiftStep_at_size (op : Nat → Nat → Nat) (P buf : List Nat) (hP : 0 < P.length)
    (i : Nat) (hi : i = buf.length) :
    shiftStep op P buf i (i % P.length) =
      if op 0 (P.getD (i % P.length) 0) = 0 then .ok (buf, (i + 1) % P.length)
      else .error .OutOfRange := by
  have hlt : i % P.length < P.length := Nat.mod_lt _ hP
  have key : (i + 1) % P.length = (i % P.length + 1) % P.length := by
    rw [Nat.add_mod i 1, Nat.add_mod (i % P.length) 1, Nat.mod_mod]
  have hnext : ∀ r, r < P.length →
      (if r + 1 = P.length then 0 else r + 1) = (r + 1) % P.length := by
    intro r hr
    split
    · rename_i h
      rw [h, Nat.mod_self]
    · rename_i h
      exact (Nat.mod_eq_of_lt (by omega)).symm
  rw [key, ← hnext _ hlt]
  subst hi
  by_cases hz : op 0 (P.getD (buf.length % P.length) 0) = 0
  · simp only [shiftStep, constAt, charAt, storeAt, hlt, Nat.lt_irrefl, hz, if_true,
      if_false, and_self]
  · simp only [shiftStep, constAt, charAt, storeAt, hlt, Nat.lt_irrefl, hz, if_true,
      if_false, and_false]

theorem shiftLoop_past_end (op : Nat → Nat → Nat) (P buf : List Nat) (hP : 0 < P.length)
    (n i : Nat) (hi : i = buf.length) :
    shiftLoop op P (n + 1) buf i (i % P.length) =
      if n = 0 ∧ op 0 (P.getD (i % P.length) 0) = 0 then .ok (buf, (i + 1) % P.length)
      else .error .OutOfRange := by
  simp only [shiftLoop]
  rw [shiftStep_at_size op P buf hP i hi]
  by_cases hz : op 0 (P.getD (i % P.length) 0) = 0
  · simp only [hz, if_true, and_true]
    cases n with
    | zero => simp only [shiftLoop, if_true]
    | succ n =>
      simp only [shiftLoop, shiftStep_beyond op P buf (i + 1) _ (by omega)]
      simp
  · simp only [hz, if_false, and_false]

theorem headerLoop_short (P e : List Nat) (hP : 0 < P.length) (he : e.length < 12) :
    shiftLoop subChar P 12 e 0 0 =
      if e.length = 11 ∧ subChar 0 (P.getD (11 % P.length) 0) = 0
      then .ok (shifted subChar P e 0 11, 12 % P.length)
      else .error .OutOfRange := by
  have hs := shiftLoop_split subChar P e.length (11 - e.length + 1) e 0 0
  rw [show e.length + (11 - e.length + 1) = 12 by omega,
    shiftLoop_zero_eq subChar P hP e.length e (Nat.le_refl _)] at hs
  simp only [Nat.zero_add] at hs
  rw [hs, shiftLoop_past_end subChar P _ hP (11 - e.length) e.length
    (by rw [length_shifted])]
  by_cases h11 : e.length = 11
  · simp only [h11, Nat.sub_self, true_and]
  · have h0 : ¬ (11 - e.length = 0) := by omega
    simp only [h11, h0, false_and, if_false]

theorem getD_shifted_short (P e : List Nat) (he : e.length = 11)
    (hz : subChar 0 (P.getD (11 % P.length) 0) = 0) (j : Nat) (hj : j ≤ 11) :
    (shifted subChar P e 0 11).getD j 0 = spec_decoded e P j := by
  by_cases h : j < 11
  · rw [getD_shifted _ _ _ _ _ _ (by omega), if_pos (by omega), subChar_eq_spec]
    rfl
  · have hj11 : j = 11 := by omega
    subst hj11
    rw [List.getD_eq_default _ _ (by rw [length_shifted]; omega), spec_decoded,
      List.getD_eq_default e _ (by omega), ← subChar_eq_spec, hz]

theorem uintAt_shifted_short (P e : List Nat) (he : e.length = 11)
    (hz : subChar 0 (P.getD (11 % P.length) 0) = 0) (k : Nat) (hk : 4 * k + 4 ≤ 12) :
    uintAt (shifted subChar P e 0 11) (4 * k) = spec_headerWord e P k := by
  simp only [spec_headerWord, uintAt]
  rw [getD_shifted_short P e he hz _ (by omega), getD_shifted_short P e he hz _ (by omega),
    getD_shifted_short P e he hz _ (by omega), getD_shifted_short P e he hz _ (by omega)]

theorem check_short (e P : List Nat) (hP : 0 < P.length) (he : e.length < 12) :
    check e P =
      if e.length = 11 ∧ P.getD (11 % P.length) 0 % 256 = 0 ∧ ¬ spec_headerValid e P
      then .ok (false, []) else .error .OutOfRange := by
  by_cases hc : e.length = 11 ∧ subChar 0 (P.getD (11 % P.length) 0) = 0
  · obtain ⟨h11, hz⟩ := hc
    have hk := (subChar_zero_iff _).mp hz
    have h0 := uintAt_shifted_short P e h11 hz 0 (by omega)
    have h1 := uintAt_shifted_short P e h11 hz 1 (by omega)
    have h2 := uintAt_shifted_short P e h11 hz 2 (by omega)
    simp only [Nat.mul_zero, Nat.mul_one] at h0 h1
    rw [show 4 * 2 = 8 from rfl] at h2
    have hl : (shifted subChar P e 0 11).length = 11 := by rw [length_shifted, h11]
    simp only [check, headerLoop_short P e hP he, h11, hz, and_self, if_true, readUInt, hl,
      h0, h1, h2, hk, true_and]
    have e32 : (2 : Nat) ^ 32 = 4294967296 := by decide
    by_cases hv : spec_headerValid e P
    · have hv' := hv
      unfold spec_headerValid at hv'
      rw [e32] at hv'
      simp [hv, hv', shiftLoop, dropHeader, hl]
    · have hv' := hv
      unfold spec_headerValid at hv'
      rw [e32] at hv'
      simp [hv, hv']
  · have hc' : ¬ (e.length = 11 ∧ P.getD (11 % P.length) 0 % 256 = 0 ∧
        ¬ spec_headerValid e P) := by
      rintro ⟨h11, hk, _⟩
      exact hc ⟨h11, (subChar_zero_iff _).mpr hk⟩
    simp only [check, headerLoop_short P e hP he, hc, hc', if_false]

/-! ## The claims -/

/-- C1. Round trip: for every non-empty password `p`, every byte sequence `m`
(the empty one included) and every pair of draws `a`, `b` in `[0, 65536)`,
`decrypt(encrypt(m, p), p)` returns `m`. -/
theorem decrypt_encrypt_roundtrip (m p : List Nat) (a b : Nat) (hp : p ≠ [])
    (hm : ∀ x ∈ m, x < 256) (ha : a < 65536) (hb : b < 65536) :
    (encrypt m p a b >>= fun e => decrypt e p) = .ok m := by
  have hP : 0 < p.length := List.length_pos.mpr hp
  rw [encrypt_eq m p a b hP, headerString_eq m a b ha hb, ← length_preCipher m a b]
  show decrypt _ p = .ok m
  have hpre : ∀ v ∈ spec_preCipher m a b, v < 256 := by
    intro v hv
    rw [← headerString_eq m a b ha hb, List.mem_append] at hv
    rcases hv with hv | hv
    · exact headerString_lt _ v hv
    · exact hm v hv
  rw [decrypt_eq _ _ hP (by rw [length_shifted, length_preCipher]; omega),
    shifted_sub_add p _ hpre]
  congr 1

/-- Witness of C1 at the message `48 49 00 FF` (its byte `FF` wraps around
under the shift), the password `"KeY"` and the draws 513, 65535. -/
theorem decrypt_encrypt_roundtrip_witness :
    ([75, 101, 89] : List Nat) ≠ [] ∧ (∀ x ∈ ([72, 73, 0, 255] : List Nat), x < 256) ∧
      513 < 65536 ∧ 65535 < 65536 ∧
      encrypt [72, 73, 0, 255] [75, 101, 89] 513 65535
        = .ok [76, 103, 89, 75, 100, 88, 75, 101, 88, 72, 101, 91, 147, 174, 89, 74] ∧
      (encrypt [72, 73, 0, 255] [75, 101, 89] 513 65535 >>= fun e => decrypt e [75, 101, 89])
        = .ok [72, 73, 0, 255] :=
  ⟨by decide, by decide, by decide, by decide, by decide,
    decrypt_encrypt_roundtrip [72, 73, 0, 255] [75, 101, 89] 513 65535 (by decide) (by decide)
      (by decide) (by decide)⟩

/-- C2. Validated round trip: for every non-empty password `p`, every byte
sequence `m` and every pair of draws `a`, `b` in `[0, 65536)`,
`check(encrypt(m, p), p)` returns `(true, m)`. The witness below is the
example of the specification: `m = "HI"`, `p = "K"`, header `a = 2`, `b = 3`,
`c = 6` gives `(true, "HI")`. -/
theorem check_encrypt_roundtrip (m p : List Nat) (a b : Nat) (hp : p ≠ [])
    (hm : ∀ x ∈ m, x < 256) (ha : a < 65536) (hb : b < 65536) :
    (encrypt m p a b >>= fun e => check e p) = .ok (true, m) := by
  have hP : 0 < p.length := List.length_pos.mpr hp
  rw [encrypt_eq m p a b hP, headerString_eq m a b ha hb, ← length_preCipher m a b]
  show check _ p = .ok (true, m)
  have hpre : ∀ v ∈ spec_preCipher m a b, v < 256 := by
    intro v hv
    rw [← headerString_eq m a b ha hb, List.mem_append] at hv
    rcases hv with hv | hv
    · exact headerString_lt _ v hv
    · exact hm v hv
  have hlen := length_preCipher m a b
  have hw : ∀ k, 4 * k + 4 ≤ 12 →
      spec_headerWord (shifted addChar p (spec_preCipher m a b) 0 (spec_preCipher m a b).length)
        p k = uintAt (spec_preCipher m a b) (4 * k) := fun k hk =>
    spec_headerWord_shifted_add p _ k (by omega) (fun i _ => getD_lt_of_forall hpre i)
  obtain ⟨hA, hB, hC⟩ := uintAt_preCipher m a b ha hb
  rw [check_eq_spec _ _ hP (by rw [length_shifted, length_preCipher]; omega),
    hw 0 (by omega), hw 1 (by omega), hw 2 (by omega), hA, hB, hC,
    shifted_sub_add p _ hpre, Nat.mod_eq_of_lt (mul_draws_lt a b ha hb)]
  simp only [ne_eq, not_true_eq_false, if_false]
  congr 1

/-- Witness of C2: the example of the specification, `m = "HI"`, `p = "K"`,
`a = 2`, `b = 3`. -/
theorem check_encrypt_roundtrip_witness :
    ([75] : List Nat) ≠ [] ∧ (∀ x ∈ ([72, 73] : List Nat), x < 256) ∧ 2 < 65536 ∧ 3 < 65536 ∧
      (encrypt [72, 73] [75] 2 3 >>= fun e => check e [75]) = .ok (true, [72, 73]) :=
  ⟨by decide, by decide, by decide, by decide,
    check_encrypt_roundtrip [72, 73] [75] 2 3 (by decide) (by decide) (by decide) (by decide)⟩

/-- C3. Header invariant: for every message, non-empty password `p` and draws
`a`, `b` in `[0, 65536)`, `encrypt` returns an output whose first 12 bytes,
after subtracting the cyclic password bytes and read as three 32-bit unsigned
integers `(A, B, C)`, satisfy `A = a`, `B = b` and `C = a * b` as natural
numbers; the product is below `2 ^ 32`, so it never wraps around. -/
theorem encrypt_header_invariant (m p : List Nat) (a b : Nat) (hp : p ≠ [])
    (ha : a < 65536) (hb : b < 65536) :
    ∃ out, encrypt m p a b = .ok out ∧
      spec_headerWord out p 0 = a ∧ spec_headerWord out p 1 = b ∧
      spec_headerWord out p 2 = spec_headerWord out p 0 * spec_headerWord out p 1 ∧
      a * b < 2 ^ 32 := by
  have hP : 0 < p.length := List.length_pos.mpr hp
  have hlen := length_preCipher m a b
  have hw : ∀ k, 4 * k + 4 ≤ 12 →
      spec_headerWord (shifted addChar p (spec_preCipher m a b) 0 (spec_preCipher m a b).length)
        p k = uintAt (spec_preCipher m a b) (4 * k) := fun k hk =>
    spec_headerWord_shifted_add p _ k (by omega)
      (fun i hi => preCipher_header_lt m a b i (by omega))
  obtain ⟨hA, hB, hC⟩ := uintAt_preCipher m a b ha hb
  refine ⟨shifted addChar p (spec_preCipher m a b) 0 (spec_preCipher m a b).length,
    ?_, ?_, ?_, ?_, mul_draws_lt a b ha hb⟩
  · rw [encrypt_eq m p a b hP, headerString_eq m a b ha hb, ← length_preCipher m a b]
  · rw [hw 0 (by omega)]; exact hA
  · rw [hw 1 (by omega)]; exact hB
  · rw [hw 0 (by omega), hw 1 (by omega), hw 2 (by omega)]
    rw [show 4 * 0 = 0 from rfl, show 4 * 1 = 4 from rfl, show 4 * 2 = 8 from rfl, hA, hB, hC]

/-- Witness of C3 at `m = "HI"`, `p = "K"`, `a = 2`, `b = 3`. -/
theorem encrypt_header_invariant_witness :
    ([75] : List Nat) ≠ [] ∧ 2 < 65536 ∧ 3 < 65536 ∧
    ∃ out, encrypt [72, 73] [75] 2 3 = .ok out ∧
      spec_headerWord out [75] 0 = 2 ∧ spec_headerWord out [75] 1 = 3 ∧
      spec_headerWord out [75] 2 = spec_headerWord out [75] 0 * spec_headerWord out [75] 1 ∧
      2 * 3 < 2 ^ 32 :=
  ⟨by decide, by decide, by decide,
    encrypt_header_invariant [72, 73] [75] 2 3 (by decide) (by decide) (by decide)⟩

/-- C4. Wire format of `encrypt`: for every message `m`, non-empty password
`p` and draws `a`, `b` in `[0, 65536)`, `encrypt(m, p)` returns a buffer of
length `12 + len(m)` whose byte at every position `i` is
`(pre[i] + p[i mod len(p)]) mod 256`, where `pre` is the 4-byte encodings of
`a`, `b` and `a * b` (least significant byte first) followed by `m`: the
password cycle runs from byte 0 and is not restarted after the header. -/
theorem encrypt_wire_format (m p : List Nat) (a b : Nat) (hp : p ≠ [])
    (ha : a < 65536) (hb : b < 65536) :
    ∃ out, encrypt m p a b = .ok out ∧ out.length = 12 + m.length ∧
      ∀ i, i < out.length →
        out[i]? = some (((spec_preCipher m a b).getD i 0 + p.getD (i % p.length) 0) % 256) := by
  have hP : 0 < p.length := List.length_pos.mpr hp
  refine ⟨shifted addChar p (spec_preCipher m a b) 0 (spec_preCipher m a b).length,
    ?_, ?_, ?_⟩
  · rw [encrypt_eq m p a b hP, headerString_eq m a b ha hb, ← length_preCipher m a b]
  · rw [length_shifted, length_preCipher]
  · intro i hi
    rw [length_shifted] at hi
    exact getElem?_of_getD (by rw [length_shifted]; exact hi)
      (getD_shifted_all addChar p _ i hi)

/-- Witness of C4: the example of the specification, `m = "HI"`, `p = "K"`,
`a = 2`, `b = 3`, whose output is `4D 4B 4B 4B 4E 4B 4B 4B 51 4B 4B 4B 93 94`. -/
theorem encrypt_wire_format_witness :
    encrypt [72, 73] [75] 2 3 =
        .ok [0x4D, 0x4B, 0x4B, 0x4B, 0x4E, 0x4B, 0x4B, 0x4B, 0x51, 0x4B, 0x4B, 0x4B, 0x93, 0x94] ∧
      ([75] : List Nat) ≠ [] ∧ 2 < 65536 ∧ 3 < 65536 ∧
      ∃ out, encrypt [72, 73] [75] 2 3 = .ok out ∧ out.length = 12 + [72, 73].length ∧
        ∀ i, i < out.length →
          out[i]? = some (((spec_preCipher [72, 73] 2 3).getD i 0 + [75].getD (i % [75].length) 0)
            % 256) :=
  ⟨by decide, by decide, by decide, by decide,
    encrypt_wire_format [72, 73] [75] 2 3 (by decide) (by decide) (by decide)⟩

/-- C5. `decrypt` specification: for every message `e` of length at least 12
and every non-empty password `p`, correct or not, `decrypt(e, p)` returns a
buffer of length `len(e) - 12` whose byte `j` is
`(e[12 + j] - p[(12 + j) mod len(p)]) mod 256`: the whole buffer is shifted
with the absolute indexing of `encrypt` and the first 12 bytes are dropped. -/
theorem decrypt_spec (e p : List Nat) (hp : p ≠ []) (he : 12 ≤ e.length) :
    ∃ out, decrypt e p = .ok out ∧ out.length = e.length - 12 ∧
      ∀ j, j < out.length →
        out[j]? = some (spec_decodeByte (e.getD (12 + j) 0) (p.getD ((12 + j) % p.length) 0)) := by
  have hP : 0 < p.length := List.length_pos.mpr hp
  refine ⟨(shifted subChar p e 0 e.length).drop 12, decrypt_eq e p hP he, ?_, ?_⟩
  · rw [List.length_drop, length_shifted]
  · intro j hj
    rw [List.length_drop, length_shifted] at hj
    exact getElem?_drop_shifted p e j (by omega)

/-- Witness of C5 at a 14-byte message and the password `"AB"`. -/
theorem decrypt_spec_witness :
    ([65, 66] : List Nat) ≠ [] ∧
    12 ≤ ([0, 1, 2, 3, 4, 5, 6, 7, 8, 9, 10, 11, 200, 100] : List Nat).length ∧
    ∃ out, decrypt [0, 1, 2, 3, 4, 5, 6, 7, 8, 9, 10, 11, 200, 100] [65, 66] = .ok out ∧
      out.length = [0, 1, 2, 3, 4, 5, 6, 7, 8, 9, 10, 11, 200, 100].length - 12 ∧
      ∀ j, j < out.length →
        out[j]? = some (spec_decodeByte
          ([0, 1, 2, 3, 4, 5, 6, 7, 8, 9, 10, 11, 200, 100].getD (12 + j) 0)
          ([65, 66].getD ((12 + j) % [65, 66].length) 0)) :=
  ⟨by decide, by decide,
    decrypt_spec [0, 1, 2, 3, 4, 5, 6, 7, 8, 9, 10, 11, 200, 100] [65, 66] (by decide)
      (by decide)⟩

/-- C6. `check` verdict: for every message `e` of length at least 12 and every
non-empty password `p`, with `(A, B, C)` the three 32-bit unsigned integers
read from the first 12 bytes of `e` after subtracting the cyclic password
bytes, `check(e, p)` returns `(false, "")` if and only if `A * B mod 2^32`
differs from `C`; otherwise it returns `true` with the remaining bytes decoded
with the password cycle continuing from index `12 mod len(p)`. So `true` is
returned, for a wrong password too, only when the decoded header satisfies
`A * B == C`. -/
theorem check_verdict (e p : List Nat) (hp : p ≠ []) (he : 12 ≤ e.length) :
    (check e p = .ok (false, []) ↔ ¬ spec_headerValid e p) ∧
    (spec_headerValid e p →
      ∃ x, check e p = .ok (true, x) ∧ x.length = e.length - 12 ∧
        ∀ j, j < x.length →
          x[j]? = some (spec_decodeByte (e.getD (12 + j) 0)
            (p.getD ((12 % p.length + j) % p.length) 0))) ∧
    (∀ x, check e p = .ok (true, x) → spec_headerValid e p) := by
  have hP : 0 < p.length := List.length_pos.mpr hp
  refine ⟨⟨?_, check_of_not_valid e p hP he⟩, ?_, ?_⟩
  · intro h hv
    rw [check_of_valid e p hP he hv] at h
    simp at h
  · intro hv
    refine ⟨(shifted subChar p e 0 e.length).drop 12, check_of_valid e p hP he hv, ?_, ?_⟩
    · rw [List.length_drop, length_shifted]
    · intro j hj
      rw [List.length_drop, length_shifted] at hj
      have hmod : (12 % p.length + j) % p.length = (12 + j) % p.length := by
        rw [Nat.add_mod 12 j, Nat.add_mod (12 % p.length) j, Nat.mod_mod]
      rw [hmod]
      exact getElem?_drop_shifted p e j (by omega)
  · intro x hx
    by_contra hv
    rw [check_of_not_valid e p hP he hv] at hx
    simp at hx

/-- Witness of C6 at a 13-byte message whose decoded header is `(2, 3, 7)`
under the password `"K"`. -/
theorem check_verdict_witness :
    ([75] : List Nat) ≠ [] ∧
    12 ≤ ([77, 75, 75, 75, 78, 75, 75, 75, 82, 75, 75, 75, 147] : List Nat).length ∧
    ((check [77, 75, 75, 75, 78, 75, 75, 75, 82, 75, 75, 75, 147] [75] = .ok (false, []) ↔
      ¬ spec_headerValid [77, 75, 75, 75, 78, 75, 75, 75, 82, 75, 75, 75, 147] [75]) ∧
    (spec_headerValid [77, 75, 75, 75, 78, 75, 75, 75, 82, 75, 75, 75, 147] [75] →
      ∃ x, check [77, 75, 75, 75, 78, 75, 75, 75, 82, 75, 75, 75, 147] [75] = .ok (true, x) ∧
        x.length = [77, 75, 75, 75, 78, 75, 75, 75, 82, 75, 75, 75, 147].length - 12 ∧
        ∀ j, j < x.length →
          x[j]? = some (spec_decodeByte
            ([77, 75, 75, 75, 78, 75, 75, 75, 82, 75, 75, 75, 147].getD (12 + j) 0)
            ([75].getD ((12 % [75].length + j) % [75].length) 0))) ∧
    (∀ x, check [77, 75, 75, 75, 78, 75, 75, 75, 82, 75, 75, 75, 147] [75] = .ok (true, x) →
      spec_headerValid [77, 75, 75, 75, 78, 75, 75, 75, 82, 75, 75, 75, 147] [75])) :=
  ⟨by decide, by decide,
    check_verdict [77, 75, 75, 75, 78, 75, 75, 75, 82, 75, 75, 75, 147] [75] (by decide)
      (by decide)⟩

/-- C7. The two shift directions are two-sided inverses: for every byte
buffer `x` and every non-empty password `p`, the subtracting pass applied to
the adding pass of `x` returns `x`, and the adding pass applied to the
subtracting pass of `x` returns `x`, both passes starting the password cycle
at index 0. -/
theorem shift_passes_inverse (x p : List Nat) (hp : p ≠ []) (hx : ∀ v ∈ x, v < 256) :
    (encryptShift x p >>= fun y => decryptShift y p) = .ok x ∧
    (decryptShift x p >>= fun y => encryptShift y p) = .ok x := by
  have hP : 0 < p.length := List.length_pos.mpr hp
  constructor
  · rw [encryptShift_eq x p hP]
    show decryptShift _ p = .ok x
    rw [decryptShift_eq _ p hP, shifted_sub_add p x hx]
  · rw [decryptShift_eq x p hP]
    show encryptShift _ p = .ok x
    rw [encryptShift_eq _ p hP, shifted_add_sub p x hx]

/-- Witness of C7 at the buffer `00 FF 48` and the password `"AB"`. -/
theorem shift_passes_inverse_witness :
    ([65, 66] : List Nat) ≠ [] ∧ (∀ v ∈ ([0, 255, 72] : List Nat), v < 256) ∧
    (encryptShift [0, 255, 72] [65, 66] >>= fun y => decryptShift y [65, 66])
      = .ok [0, 255, 72] ∧
    (decryptShift [0, 255, 72] [65, 66] >>= fun y => encryptShift y [65, 66])
      = .ok [0, 255, 72] :=
  ⟨by decide, by decide, shift_passes_inverse [0, 255, 72] [65, 66] (by decide) (by decide)⟩

/-- C8, counterexample. With the empty password and the message `"HI"`,
`encrypt` does not fail with `InvalidKey`, and not before any byte is
processed: the first loop iteration adds `PASSWORD[0]`, the null character of
the empty string, to byte 0 and moves `passwordIndex` to 1, and the second
iteration reads `PASSWORD[1]` out of range. -/
theorem empty_password_not_InvalidKey :
    encrypt [72, 73] [] 2 3 ≠ .error .InvalidKey ∧
    encrypt [72, 73] [] 2 3 = .error .OutOfRange ∧
    shiftStep addChar [] ((Header.new 2 3).toString ++ [72, 73]) 0 0
      = .ok ((Header.new 2 3).toString ++ [72, 73], 1) ∧
    shiftStep addChar [] ((Header.new 2 3).toString ++ [72, 73]) 1 1 = .error .OutOfRange := by
  decide

/-- C8, amended. With an empty password `encrypt`, `decrypt` and `check`
return no result, for every message and all draws, but none of them fails with
`InvalidKey`: each call ends in an access outside the password or the
buffer. -/
theorem empty_password_out_of_range (m e : List Nat) (a b : Nat) :
    encrypt m [] a b = .error .OutOfRange ∧ decrypt e [] = .error .OutOfRange ∧
      check e [] = .error .OutOfRange := by
  refine ⟨?_, ?_, ?_⟩
  · have hlen : ((Header.new (a % (1 <<< 16)) (b % (1 <<< 16))).toString ++ m).length
        = m.length + 10 + 2 := by
      rw [List.length_append, length_headerString]; omega
    simp only [encrypt, hlen, shiftLoop_empty]
  · match e with
    | [] => rfl
    | [x] => rfl
    | x :: y :: rest =>
      simp only [decrypt, List.length_cons, shiftLoop_empty]
  · simp only [check, shiftLoop_empty addChar 10, shiftLoop_empty subChar 10 e]

/-- C9, counterexample. On the 3-byte message `01 02 03` with the password
`"K"`, `decrypt` and `check` do not fail with `MalformedMessage`, and
`decrypt` has applied the transform to the whole buffer before it runs out of
range. On the 11-byte message `02 00 00 00 03 00 00 00 07 00 00` with the
one-byte password `00` the call of `check` is not rejected at all: the header
loop rewrites the terminator with the null character, the header reads as
`(2, 3, 7)`, and `check` returns `(false, "")`. -/
theorem short_message_not_MalformedMessage :
    decrypt [1, 2, 3] [75] ≠ .error .MalformedMessage ∧
    check [1, 2, 3] [75] ≠ .error .MalformedMessage ∧
    decrypt [1, 2, 3] [75] = .error .OutOfRange ∧
    check [1, 2, 3] [75] = .error .OutOfRange ∧
    decryptShift [1, 2, 3] [75] = .ok [182, 183, 184] ∧
    check [2, 0, 0, 0, 3, 0, 0, 0, 7, 0, 0] [0] = .ok (false, []) ∧
    check [2, 0, 0, 0, 3, 0, 0, 0, 7, 0, 0] [0] ≠ .error .MalformedMessage := by
  decide

/-- C9, amended. On a buffer shorter than 12 bytes and with a non-empty
password, neither `decrypt` nor `check` fails with `MalformedMessage`, and
neither returns a plaintext. `decrypt` completes its subtracting loop over the
buffer and then forms `begin() + 12` past the end. The header loop of `check`
runs 12 iterations whatever the length, so it indexes the terminator at
position `len(e)`: the call runs out of range, except on an 11-byte buffer
whose password byte at index 11 is the null character mod 256, where the
terminator is rewritten with the null character; then `check` returns
`(false, "")` when the decoded header, the terminator being its last byte,
fails `A * B == C`, and forms `begin() + 12` past the end otherwise. -/
theorem short_message_behaviour (e p : List Nat) (hp : p ≠ []) (he : e.length < 12) :
    decrypt e p = .error .OutOfRange ∧
    decryptShift e p = .ok (shifted subChar p e 0 e.length) ∧
    dropHeader (shifted subChar p e 0 e.length) = .error .OutOfRange ∧
    check e p =
      (if e.length = 11 ∧ p.getD (11 % p.length) 0 % 256 = 0 ∧ ¬ spec_headerValid e p
        then .ok (false, []) else .error .OutOfRange) ∧
    check e p ≠ .error .MalformedMessage ∧
    (∀ x, check e p ≠ .ok (true, x)) := by
  have hP : 0 < p.length := List.length_pos.mpr hp
  have h1 := shiftLoop_zero_eq subChar p hP e.length e (Nat.le_refl _)
  have hd : dropHeader (shifted subChar p e 0 e.length) = .error .OutOfRange := by
    simp only [dropHeader, length_shifted, Nat.not_le.mpr he, if_false]
  have hc := check_short e p hP he
  refine ⟨?_, decryptShift_eq e p hP, hd, hc, ?_, ?_⟩
  · simp only [decrypt, h1, hd]
  · rw [hc]
    split <;> simp
  · intro x
    rw [hc]
    split <;> simp

/-- Witness of the amended C9 at the 11-byte message
`02 00 00 00 03 00 00 00 07 00 00` and the one-byte password `00`, where
`check` returns `(false, "")`. -/
theorem short_message_behaviour_witness :
    ([0] : List Nat) ≠ [] ∧ ([2, 0, 0, 0, 3, 0, 0, 0, 7, 0, 0] : List Nat).length < 12 ∧
    check [2, 0, 0, 0, 3, 0, 0, 0, 7, 0, 0] [0] = .ok (false, []) ∧
    (decrypt [2, 0, 0, 0, 3, 0, 0, 0, 7, 0, 0] [0] = .error .OutOfRange ∧
    decryptShift [2, 0, 0, 0, 3, 0, 0, 0, 7, 0, 0] [0]
      = .ok (shifted subChar [0] [2, 0, 0, 0, 3, 0, 0, 0, 7, 0, 0] 0
        [2, 0, 0, 0, 3, 0, 0, 0, 7, 0, 0].length) ∧
    dropHeader (shifted subChar [0] [2, 0, 0, 0, 3, 0, 0, 0, 7, 0, 0] 0
      [2, 0, 0, 0, 3, 0, 0, 0, 7, 0, 0].length) = .error .OutOfRange ∧
    check [2, 0, 0, 0, 3, 0, 0, 0, 7, 0, 0] [0] =
      (if [2, 0, 0, 0, 3, 0, 0, 0, 7, 0, 0].length = 11 ∧
          ([0] : List Nat).getD (11 % ([0] : List Nat).length) 0 % 256 = 0 ∧
          ¬ spec_headerValid [2, 0, 0, 0, 3, 0, 0, 0, 7, 0, 0] [0]
        then .ok (false, []) else .error .OutOfRange) ∧
    check [2, 0, 0, 0, 3, 0, 0, 0, 7, 0, 0] [0] ≠ .error .MalformedMessage ∧
    (∀ x, check [2, 0, 0, 0, 3, 0, 0, 0, 7, 0, 0] [0] ≠ .ok (true, x))) :=
  ⟨by decide, by decide, by decide,
    short_message_behaviour [2, 0, 0, 0, 3, 0, 0, 0, 7, 0, 0] [0] (by decide) (by decide)⟩

/-- C10. Boundary: for every message of length exactly 12 and every non-empty
password, `check` returns, it returns `true` if and only if the decoded header
satisfies `A * B == C` (32-bit wraparound), and whenever it returns `true` the
plaintext component is the empty string. -/
theorem check_boundary (e p : List Nat) (hp : p ≠ []) (he : e.length = 12) :
    (∃ r, check e p = .ok r) ∧
    ((∃ x, check e p = .ok (true, x)) ↔ spec_headerValid e p) ∧
    (∀ x, check e p = .ok (true, x) → x = []) := by
  have hP : 0 < p.length := List.length_pos.mpr hp
  have hdrop : (shifted subChar p e 0 e.length).drop 12 = [] := by
    apply List.drop_eq_nil_of_le
    rw [length_shifted]; omega
  by_cases hv : spec_headerValid e p
  · have h := check_of_valid e p hP (by omega) hv
    rw [hdrop] at h
    refine ⟨⟨_, h⟩, ⟨fun _ => hv, fun _ => ⟨_, h⟩⟩, ?_⟩
    intro x hx
    rw [h] at hx
    simp only [Except.ok.injEq, Prod.mk.injEq, true_and] at hx
    exact hx.symm
  · have h := check_of_not_valid e p hP (by omega) hv
    refine ⟨⟨_, h⟩, ⟨?_, fun h' => absurd h' hv⟩, ?_⟩
    · rintro ⟨x, hx⟩
      rw [h] at hx
      simp at hx
    · intro x hx
      rw [h] at hx
      simp at hx

/-- Witness of C10 at the 12-byte message that `encrypt` produces for the
empty plaintext, the password `"K"` and the draws 2, 3. -/
theorem check_boundary_witness :
    ([75] : List Nat) ≠ [] ∧
    ([77, 75, 75, 75, 78, 75, 75, 75, 81, 75, 75, 75] : List Nat).length = 12 ∧
    (∃ r, check [77, 75, 75, 75, 78, 75, 75, 75, 81, 75, 75, 75] [75] = .ok r) ∧
    ((∃ x, check [77, 75, 75, 75, 78, 75, 75, 75, 81, 75, 75, 75] [75] = .ok (true, x)) ↔
      spec_headerValid [77, 75, 75, 75, 78, 75, 75, 75, 81, 75, 75, 75] [75]) ∧
    (∀ x, check [77, 75, 75, 75, 78, 75, 75, 75, 81, 75, 75, 75] [75] = .ok (true, x) →
      x = []) :=
  ⟨by decide, by decide,
    check_boundary [77, 75, 75, 75, 78, 75, 75, 75, 81, 75, 75, 75] [75] (by decide)
      (by decide)⟩

/-! ## Lemmas on the header and the payload of a message -/

theorem getD_of_take_eq {e₁ e₂ : List Nat} (h : e₁.take 12 = e₂.take 12) (i : Nat)
    (hi : i < 12) : e₁.getD i 0 = e₂.getD i 0 := by
  rw [List.getD_eq_getElem?_getD, List.getD_eq_getElem?_getD,
    ← List.getElem?_take_of_lt hi, ← List.getElem?_take_of_lt (l := e₂) hi, h]

theorem spec_headerWord_congr (e₁ e₂ p q : List Nat) (k : Nat) (hk : 4 * k + 4 ≤ 12)
    (he : ∀ i, i < 12 → e₁.getD i 0 = e₂.getD i 0)
    (hq : ∀ i, i < 12 → p.getD (i % p.length) 0 = q.getD (i % q.length) 0) :
    spec_headerWord e₁ p k = spec_headerWord e₂ q k := by
  simp only [spec_headerWord, spec_decoded]
  rw [he (4 * k) (by omega), he (4 * k + 1) (by omega), he (4 * k + 2) (by omega),
    he (4 * k + 3) (by omega), hq (4 * k) (by omega), hq (4 * k + 1) (by omega),
    hq (4 * k + 2) (by omega), hq (4 * k + 3) (by omega)]

theorem spec_headerValid_congr (e₁ e₂ p q : List Nat)
    (he : ∀ i, i < 12 → e₁.getD i 0 = e₂.getD i 0)
    (hq : ∀ i, i < 12 → p.getD (i % p.length) 0 = q.getD (i % q.length) 0) :
    spec_headerValid e₁ p ↔ spec_headerValid e₂ q := by
  unfold spec_headerValid
  rw [spec_headerWord_congr e₁ e₂ p q 0 (by omega) he hq,
    spec_headerWord_congr e₁ e₂ p q 1 (by omega) he hq,
    spec_headerWord_congr e₁ e₂ p q 2 (by omega) he hq]

theorem spec_headerWord_encrypted (m p : List Nat) (a b : Nat) (ha : a < 65536)
    (hb : b < 65536) :
    spec_headerWord (shifted addChar p (spec_preCipher m a b) 0 (spec_preCipher m a b).length)
        p 0 = a ∧
    spec_headerWord (shifted addChar p (spec_preCipher m a b) 0 (spec_preCipher m a b).length)
        p 1 = b ∧
    spec_headerWord (shifted addChar p (spec_preCipher m a b) 0 (spec_preCipher m a b).length)
        p 2 = a * b := by
  have hlen := length_preCipher m a b
  have hw : ∀ k, 4 * k + 4 ≤ 12 →
      spec_headerWord (shifted addChar p (spec_preCipher m a b) 0 (spec_preCipher m a b).length)
        p k = uintAt (spec_preCipher m a b) (4 * k) := fun k hk =>
    spec_headerWord_shifted_add p _ k (by omega)
      (fun i hi => preCipher_header_lt m a b i (by omega))
  obtain ⟨hA, hB, hC⟩ := uintAt_preCipher m a b ha hb
  exact ⟨by rw [hw 0 (by omega)]; exact hA, by rw [hw 1 (by omega)]; exact hB,
    by rw [hw 2 (by omega)]; exact hC⟩

theorem encrypt_eq_preCipher (m p : List Nat) (a b : Nat) (hP : 0 < p.length)
    (ha : a < 65536) (hb : b < 65536) :
    encrypt m p a b =
      .ok (shifted addChar p (spec_preCipher m a b) 0 (spec_preCipher m a b).length) := by
  rw [encrypt_eq m p a b hP, headerString_eq m a b ha hb, ← length_preCipher m a b]

theorem getD_preCipher_payload (m : List Nat) (a b j : Nat) :
    (spec_preCipher m a b).getD (12 + j) 0 = m.getD j 0 := by
  have hl : (uintBytes a ++ uintBytes b ++ uintBytes (a * b)).length = 12 := by
    simp only [uintBytes, List.length_append, List.length_cons, List.length_nil]
  rw [spec_preCipher, List.getD_append_right _ _ _ _ (by rw [hl]; omega), hl]
  congr 1
  omega

theorem drop_encrypted_eq (m p : List Nat) (a b a' b' : Nat) :
    (shifted addChar p (spec_preCipher m a b) 0 (spec_preCipher m a b).length).drop 12 =
    (shifted addChar p (spec_preCipher m a' b') 0 (spec_preCipher m a' b').length).drop 12 := by
  apply ext_getD
  · simp only [List.length_drop, length_shifted, length_preCipher]
  · intro j hj
    simp only [List.length_drop, length_shifted, length_preCipher] at hj
    simp only [List.getD_eq_getElem?_getD, List.getElem?_drop]
    simp only [← List.getD_eq_getElem?_getD]
    rw [getD_shifted_all _ _ _ _ (by rw [length_preCipher]; omega),
      getD_shifted_all _ _ _ _ (by rw [length_preCipher]; omega),
      getD_preCipher_payload, getD_preCipher_payload]

/-- C11. Determinism and header/payload independence: for a fixed message `m`
and a non-empty password `p`, `encrypt` with the same draws `(a, b)` yields the
same output; with two different pairs of draws in `[0, 65536)^2` the first 12
bytes of the two outputs differ, while the bytes from position 12 on are the
same, so the payload bytes do not depend on the header values. -/
theorem encrypt_header_payload_independent (m p : List Nat) (a b a' b' : Nat) (hp : p ≠ [])
    (ha : a < 65536) (hb : b < 65536) (ha' : a' < 65536) (hb' : b' < 65536) :
    ((a, b) = (a', b') → encrypt m p a b = encrypt m p a' b') ∧
    ((a, b) ≠ (a', b') →
      ∃ out out', encrypt m p a b = .ok out ∧ encrypt m p a' b' = .ok out' ∧
        out.take 12 ≠ out'.take 12 ∧ out.drop 12 = out'.drop 12) := by
  have hP : 0 < p.length := List.length_pos.mpr hp
  constructor
  · intro h
    rw [Prod.mk.injEq] at h
    rw [h.1, h.2]
  · intro hne
    refine ⟨_, _, encrypt_eq_preCipher m p a b hP ha hb,
      encrypt_eq_preCipher m p a' b' hP ha' hb', ?_, drop_encrypted_eq m p a b a' b'⟩
    intro htake
    obtain ⟨hA, hB, _⟩ := spec_headerWord_encrypted m p a b ha hb
    obtain ⟨hA', hB', _⟩ := spec_headerWord_encrypted m p a' b' ha' hb'
    have hget := getD_of_take_eq htake
    have h0 := spec_headerWord_congr _ _ p p 0 (by omega) hget (fun _ _ => rfl)
    have h1 := spec_headerWord_congr _ _ p p 1 (by omega) hget (fun _ _ => rfl)
    rw [hA, hA'] at h0
    rw [hB, hB'] at h1
    exact hne (by rw [h0, h1])

/-- Witness of C11 at `m = "HI"`, `p = "K"` and the draws `(2, 3)`, `(2, 4)`. -/
theorem encrypt_header_payload_independent_witness :
    ([75] : List Nat) ≠ [] ∧ 2 < 65536 ∧ 3 < 65536 ∧ 4 < 65536 ∧
    (((2, 3) : Nat × Nat) = (2, 4) → encrypt [72, 73] [75] 2 3 = encrypt [72, 73] [75] 2 4) ∧
    (((2, 3) : Nat × Nat) ≠ (2, 4) →
      ∃ out out', encrypt [72, 73] [75] 2 3 = .ok out ∧ encrypt [72, 73] [75] 2 4 = .ok out' ∧
        out.take 12 ≠ out'.take 12 ∧ out.drop 12 = out'.drop 12) :=
  ⟨by decide, by decide, by decide, by decide,
    encrypt_header_payload_independent [72, 73] [75] 2 3 2 4 (by decide) (by decide)
      (by decide) (by decide) (by decide)⟩

/-- C12. Payload integrity is not verified: for every non-empty password `p`
and any two messages `e₁`, `e₂` of length at least 12 that agree on their first
12 bytes, `check(e₁, p)` and `check(e₂, p)` return, and return the same
boolean: the verdict depends on the header bytes only, never on the payload. -/
theorem check_verdict_ignores_payload (e₁ e₂ p : List Nat) (hp : p ≠ [])
    (h₁ : 12 ≤ e₁.length) (h₂ : 12 ≤ e₂.length) (h : e₁.take 12 = e₂.take 12) :
    ∃ v x₁ x₂, check e₁ p = .ok (v, x₁) ∧ check e₂ p = .ok (v, x₂) := by
  have hP : 0 < p.length := List.length_pos.mpr hp
  have hiff := spec_headerValid_congr e₁ e₂ p p (getD_of_take_eq h) (fun _ _ => rfl)
  by_cases hv : spec_headerValid e₁ p
  · exact ⟨true, _, _, check_of_valid e₁ p hP h₁ hv, check_of_valid e₂ p hP h₂ (hiff.mp hv)⟩
  · exact ⟨false, _, _, check_of_not_valid e₁ p hP h₁ hv,
      check_of_not_valid e₂ p hP h₂ (fun h' => hv (hiff.mpr h'))⟩

/-- Witness of C12 at two messages with the header `(2, 3, 6)` under the
password `"K"` and the different payloads `"HI"` and `"J"`. -/
theorem check_verdict_ignores_payload_witness :
    ([75] : List Nat) ≠ [] ∧
    12 ≤ ([77, 75, 75, 75, 78, 75, 75, 75, 81, 75, 75, 75, 147, 148] : List Nat).length ∧
    12 ≤ ([77, 75, 75, 75, 78, 75, 75, 75, 81, 75, 75, 75, 149] : List Nat).length ∧
    ([77, 75, 75, 75, 78, 75, 75, 75, 81, 75, 75, 75, 147, 148] : List Nat).take 12
      = ([77, 75, 75, 75, 78, 75, 75, 75, 81, 75, 75, 75, 149] : List Nat).take 12 ∧
    ∃ v x₁ x₂,
      check [77, 75, 75, 75, 78, 75, 75, 75, 81, 75, 75, 75, 147, 148] [75] = .ok (v, x₁) ∧
      check [77, 75, 75, 75, 78, 75, 75, 75, 81, 75, 75, 75, 149] [75] = .ok (v, x₂) :=
  ⟨by decide, by decide, by decide, by decide,
    check_verdict_ignores_payload [77, 75, 75, 75, 78, 75, 75, 75, 81, 75, 75, 75, 147, 148]
      [77, 75, 75, 75, 78, 75, 75, 75, 81, 75, 75, 75, 149] [75] (by decide) (by decide)
      (by decide) (by decide)⟩

theorem spec_headerValid_encrypted (m p : List Nat) (a b : Nat) (ha : a < 65536)
    (hb : b < 65536) :
    spec_headerValid
      (shifted addChar p (spec_preCipher m a b) 0 (spec_preCipher m a b).length) p := by
  obtain ⟨hA, hB, hC⟩ := spec_headerWord_encrypted m p a b ha hb
  unfold spec_headerValid
  rw [hA, hB, hC, Nat.mod_eq_of_lt (mul_draws_lt a b ha hb)]

/-- C13. The documentation comment of the class states that the header holds
three ints with `a + b = c` and that `check` deems the password correct when
the decoded uints satisfy `a + b = c`. The code does otherwise: for
`m = "HI"`, `p = "K"` and the draws 2, 3 the header that `encrypt` writes
decodes to `(2, 3, 6)`, and `2 + 3` is not 6; `check` accepts this message,
and it rejects the message with the decoded header `(2, 3, 5)`, for which
`2 + 3 = 5` holds. -/
theorem header_relation_not_sum :
    encrypt [72, 73] [75] 2 3
      = .ok [77, 75, 75, 75, 78, 75, 75, 75, 81, 75, 75, 75, 147, 148] ∧
    spec_headerWord [77, 75, 75, 75, 78, 75, 75, 75, 81, 75, 75, 75, 147, 148] [75] 0 = 2 ∧
    spec_headerWord [77, 75, 75, 75, 78, 75, 75, 75, 81, 75, 75, 75, 147, 148] [75] 1 = 3 ∧
    spec_headerWord [77, 75, 75, 75, 78, 75, 75, 75, 81, 75, 75, 75, 147, 148] [75] 2 = 6 ∧
    2 + 3 ≠ 6 ∧
    check [77, 75, 75, 75, 78, 75, 75, 75, 81, 75, 75, 75, 147, 148] [75]
      = .ok (true, [72, 73]) ∧
    spec_headerWord [77, 75, 75, 75, 78, 75, 75, 75, 80, 75, 75, 75, 147, 148] [75] 0 = 2 ∧
    spec_headerWord [77, 75, 75, 75, 78, 75, 75, 75, 80, 75, 75, 75, 147, 148] [75] 1 = 3 ∧
    spec_headerWord [77, 75, 75, 75, 78, 75, 75, 75, 80, 75, 75, 75, 147, 148] [75] 2 = 5 ∧
    check [77, 75, 75, 75, 78, 75, 75, 75, 80, 75, 75, 75, 147, 148] [75]
      = .ok (false, []) := by
  decide

/-- C14. `check` and `decrypt` agree: for every message `e` of length at least
12 and every non-empty password `p`, both return, and if `check(e, p)` returns
`(true, x)` then `decrypt(e, p)` returns `x`; the header loop of `check`
followed by its payload loop, which continues with the same index and
password position, ends in the same buffer and counter as the single loop of
`decrypt`. -/
theorem check_agrees_with_decrypt (e p : List Nat) (hp : p ≠ []) (he : 12 ≤ e.length) :
    (∃ r, check e p = .ok r) ∧ (∃ y, decrypt e p = .ok y) ∧
    (∀ x, check e p = .ok (true, x) → decrypt e p = .ok x) ∧
    (∃ h q buf r, shiftLoop subChar p 12 e 0 0 = .ok (h, q) ∧
      shiftLoop subChar p (e.length - 12) h 12 q = .ok (buf, r) ∧
      shiftLoop subChar p e.length e 0 0 = .ok (buf, r)) := by
  have hP : 0 < p.length := List.length_pos.mpr hp
  have hd := decrypt_eq e p hP he
  refine ⟨?_, ⟨_, hd⟩, ?_, ?_⟩
  · by_cases hv : spec_headerValid e p
    · exact ⟨_, check_of_valid e p hP he hv⟩
    · exact ⟨_, check_of_not_valid e p hP he hv⟩
  · intro x hx
    by_cases hv : spec_headerValid e p
    · rw [check_of_valid e p hP he hv] at hx
      simp only [Except.ok.injEq, Prod.mk.injEq, true_and] at hx
      rw [hd, hx]
    · rw [check_of_not_valid e p hP he hv] at hx
      simp at hx
  · have h1 := shiftLoop_zero_eq subChar p hP 12 e he
    have h2 := shiftLoop_eq subChar p hP (e.length - 12) (shifted subChar p e 0 12) 12
      (by rw [length_shifted]; omega)
    rw [shifted_shifted subChar p e 12 he, show 12 + (e.length - 12) = e.length by omega] at h2
    exact ⟨_, _, _, _, h1, h2, shiftLoop_zero_eq subChar p hP e.length e (Nat.le_refl _)⟩

/-- Witness of C14 at the message of the specification's example and the
password `"K"`. -/
theorem check_agrees_with_decrypt_witness :
    ([75] : List Nat) ≠ [] ∧
    12 ≤ ([77, 75, 75, 75, 78, 75, 75, 75, 81, 75, 75, 75, 147, 148] : List Nat).length ∧
    (∃ r, check [77, 75, 75, 75, 78, 75, 75, 75, 81, 75, 75, 75, 147, 148] [75] = .ok r) ∧
    (∃ y, decrypt [77, 75, 75, 75, 78, 75, 75, 75, 81, 75, 75, 75, 147, 148] [75] = .ok y) ∧
    (∀ x, check [77, 75, 75, 75, 78, 75, 75, 75, 81, 75, 75, 75, 147, 148] [75] = .ok (true, x) →
      decrypt [77, 75, 75, 75, 78, 75, 75, 75, 81, 75, 75, 75, 147, 148] [75] = .ok x) ∧
    (∃ h q buf r,
      shiftLoop subChar [75] 12 [77, 75, 75, 75, 78, 75, 75, 75, 81, 75, 75, 75, 147, 148] 0 0
        = .ok (h, q) ∧
      shiftLoop subChar [75]
        ([77, 75, 75, 75, 78, 75, 75, 75, 81, 75, 75, 75, 147, 148].length - 12) h 12 q
        = .ok (buf, r) ∧
      shiftLoop subChar [75]
        [77, 75, 75, 75, 78, 75, 75, 75, 81, 75, 75, 75, 147, 148].length
        [77, 75, 75, 75, 78, 75, 75, 75, 81, 75, 75, 75, 147, 148] 0 0 = .ok (buf, r)) :=
  ⟨by decide, by decide,
    check_agrees_with_decrypt [77, 75, 75, 75, 78, 75, 75, 75, 81, 75, 75, 75, 147, 148] [75]
      (by decide) (by decide)⟩

/-! ## Lemmas on passwords that decode alike -/

theorem encrypt_mod (m p : List Nat) (a b : Nat) :
    encrypt m p a b = encrypt m p (a % 65536) (b % 65536) := by
  have e16 : (1 <<< 16 : Nat) = 65536 := by decide
  simp only [encrypt, e16, Nat.mod_mod]

theorem check_encrypt_ok (m p : List Nat) (a b : Nat) (hP : 0 < p.length)
    (hm : ∀ x ∈ m, x < 256) :
    ∃ out, encrypt m p a b = .ok out ∧ 12 ≤ out.length ∧ check out p = .ok (true, m) := by
  have ha : a % 65536 < 65536 := Nat.mod_lt _ (by decide)
  have hb : b % 65536 < 65536 := Nat.mod_lt _ (by decide)
  have hpre : ∀ v ∈ spec_preCipher m (a % 65536) (b % 65536), v < 256 := by
    intro v hv
    rw [← headerString_eq m _ _ ha hb, List.mem_append] at hv
    rcases hv with hv | hv
    · exact headerString_lt _ v hv
    · exact hm v hv
  have hlen : 12 ≤ (shifted addChar p (spec_preCipher m (a % 65536) (b % 65536)) 0
      (spec_preCipher m (a % 65536) (b % 65536)).length).length := by
    rw [length_shifted, length_preCipher]; omega
  refine ⟨_, ?_, hlen, ?_⟩
  · rw [encrypt_mod, encrypt_eq_preCipher m p _ _ hP ha hb]
  · rw [check_of_valid _ p hP hlen (spec_headerValid_encrypted m p _ _ ha hb),
      shifted_sub_add p _ hpre]
    congr 1

theorem length_spec_repeat (p : List Nat) (k : Nat) :
    (spec_repeat p k).length = k * p.length := by
  induction k with
  | zero => simp [spec_repeat]
  | succ k ih => rw [spec_repeat, List.length_append, ih, Nat.succ_mul, Nat.add_comm]

theorem getD_spec_repeat (p : List Nat) :
    ∀ (k i : Nat), i < k * p.length → (spec_repeat p k).getD i 0 = p.getD (i % p.length) 0 := by
  intro k
  induction k with
  | zero => intro i hi; omega
  | succ k ih =>
    intro i hi
    rw [spec_repeat]
    by_cases h : i < p.length
    · rw [List.getD_append _ _ _ _ h, Nat.mod_eq_of_lt h]
    · rw [List.getD_append_right _ _ _ _ (by omega), ih (i - p.length)
        (by rw [Nat.succ_mul] at hi; omega), ← Nat.mod_eq_sub_mod (by omega)]

theorem getD_spec_repeat_mod (p : List Nat) (hP : 0 < p.length) (k : Nat) (hk : 1 ≤ k)
    (j : Nat) :
    (spec_repeat p k).getD (j % (spec_repeat p k).length) 0 = p.getD (j % p.length) 0 := by
  have hpos : 0 < k * p.length := Nat.mul_pos (by omega) hP
  rw [length_spec_repeat, getD_spec_repeat p k _ (Nat.mod_lt _ hpos),
    Nat.mod_mul_left_mod]

theorem shifted_spec_repeat (op : Nat → Nat → Nat) (p buf : List Nat) (hP : 0 < p.length)
    (k : Nat) (hk : 1 ≤ k) (i n : Nat) :
    shifted op (spec_repeat p k) buf i n = shifted op p buf i n := by
  simp only [shifted]
  apply List.map_congr_left
  intro j _
  rw [getD_spec_repeat_mod p hP k hk j]

/-- C15. Guaranteed false accept: for every message `m`, draws `a`, `b` in
`[0, 65536)` and non-empty passwords `p₁`, `p₂` with
`p₁[i mod len(p₁)] = p₂[i mod len(p₂)]` for every `i < 12`,
`check(encrypt(m, p₁), p₂)` returns `true`; this happens for different
passwords too, and the returned plaintext may differ from `m`, as for the two
13-byte passwords below that differ in their last byte only. -/
theorem check_accepts_header_equal_password (m p₁ p₂ : List Nat) (a b : Nat)
    (hp₁ : p₁ ≠ []) (hp₂ : p₂ ≠ []) (ha : a < 65536) (hb : b < 65536)
    (h : ∀ i, i < 12 → p₁.getD (i % p₁.length) 0 = p₂.getD (i % p₂.length) 0) :
    (∃ x, (encrypt m p₁ a b >>= fun e => check e p₂) = .ok (true, x)) ∧
    (([1, 2, 3, 4, 5, 6, 7, 8, 9, 10, 11, 12, 13] : List Nat)
        ≠ [1, 2, 3, 4, 5, 6, 7, 8, 9, 10, 11, 12, 14] ∧
      ∃ x, (encrypt [72] [1, 2, 3, 4, 5, 6, 7, 8, 9, 10, 11, 12, 13] 2 3 >>= fun e =>
          check e [1, 2, 3, 4, 5, 6, 7, 8, 9, 10, 11, 12, 14]) = .ok (true, x) ∧
        x ≠ [72]) := by
  have hP₁ : 0 < p₁.length := List.length_pos.mpr hp₁
  have hP₂ : 0 < p₂.length := List.length_pos.mpr hp₂
  refine ⟨?_, by decide, [71], by decide, by decide⟩
  have hv := spec_headerValid_encrypted m p₁ a b ha hb
  rw [spec_headerValid_congr _ _ p₁ p₂ (fun _ _ => rfl) h] at hv
  rw [encrypt_eq_preCipher m p₁ a b hP₁ ha hb]
  exact ⟨_, check_of_valid _ p₂ hP₂ (by rw [length_shifted, length_preCipher]; omega) hv⟩

/-- Witness of C15 at `m = "H"`, the draws 2, 3 and two 13-byte passwords that
differ in their last byte only. -/
theorem check_accepts_header_equal_password_witness :
    ([1, 2, 3, 4, 5, 6, 7, 8, 9, 10, 11, 12, 13] : List Nat) ≠ [] ∧
    ([1, 2, 3, 4, 5, 6, 7, 8, 9, 10, 11, 12, 14] : List Nat) ≠ [] ∧
    2 < 65536 ∧ 3 < 65536 ∧
    (∀ i, i < 12 →
      ([1, 2, 3, 4, 5, 6, 7, 8, 9, 10, 11, 12, 13] : List Nat).getD
          (i % [1, 2, 3, 4, 5, 6, 7, 8, 9, 10, 11, 12, 13].length) 0
        = ([1, 2, 3, 4, 5, 6, 7, 8, 9, 10, 11, 12, 14] : List Nat).getD
          (i % [1, 2, 3, 4, 5, 6, 7, 8, 9, 10, 11, 12, 14].length) 0) ∧
    (∃ x, (encrypt [72] [1, 2, 3, 4, 5, 6, 7, 8, 9, 10, 11, 12, 13] 2 3 >>= fun e =>
      check e [1, 2, 3, 4, 5, 6, 7, 8, 9, 10, 11, 12, 14]) = .ok (true, x)) ∧
    (([1, 2, 3, 4, 5, 6, 7, 8, 9, 10, 11, 12, 13] : List Nat)
        ≠ [1, 2, 3, 4, 5, 6, 7, 8, 9, 10, 11, 12, 14] ∧
      ∃ x, (encrypt [72] [1, 2, 3, 4, 5, 6, 7, 8, 9, 10, 11, 12, 13] 2 3 >>= fun e =>
          check e [1, 2, 3, 4, 5, 6, 7, 8, 9, 10, 11, 12, 14]) = .ok (true, x) ∧
        x ≠ [72]) :=
  ⟨by decide, by decide, by decide, by decide, by decide,
    check_accepts_header_equal_password [72] [1, 2, 3, 4, 5, 6, 7, 8, 9, 10, 11, 12, 13]
      [1, 2, 3, 4, 5, 6, 7, 8, 9, 10, 11, 12, 14] 2 3 (by decide) (by decide) (by decide)
      (by decide) (by decide)⟩

/-- C16. Repeated passwords are interchangeable: for every non-empty password
`p`, every `k ≥ 1`, every message `m` and all draws, `encrypt` under `p`
repeated `k` times equals `encrypt` under `p`, and on every `e` of length at
least 12 `decrypt` and `check` give the same result under both; hence
`check(encrypt(m, p), p repeated k times)` is `(true, m)` although for
`k ≥ 2` the two passwords differ, as `"K"` and `"KK"` do. -/
theorem repeated_password_interchangeable (m p : List Nat) (k a b : Nat) (hp : p ≠ [])
    (hk : 1 ≤ k) :
    encrypt m (spec_repeat p k) a b = encrypt m p a b ∧
    (∀ e, 12 ≤ e.length →
      decrypt e (spec_repeat p k) = decrypt e p ∧ check e (spec_repeat p k) = check e p) ∧
    ((∀ x ∈ m, x < 256) →
      (encrypt m p a b >>= fun e => check e (spec_repeat p k)) = .ok (true, m)) ∧
    (2 ≤ k → spec_repeat p k ≠ p) := by
  have hP : 0 < p.length := List.length_pos.mpr hp
  have hR : 0 < (spec_repeat p k).length := by
    rw [length_spec_repeat]; exact Nat.mul_pos (by omega) hP
  have hcheck : ∀ e, 12 ≤ e.length → check e (spec_repeat p k) = check e p := by
    intro e he
    rw [check_eq e _ hR he, check_eq e p hP he, shifted_spec_repeat _ p e hP k hk,
      shifted_spec_repeat _ p e hP k hk]
  refine ⟨?_, ?_, ?_, ?_⟩
  · rw [encrypt_eq m _ a b hR, encrypt_eq m p a b hP, shifted_spec_repeat _ p _ hP k hk]
  · intro e he
    refine ⟨?_, hcheck e he⟩
    rw [decrypt_eq e _ hR he, decrypt_eq e p hP he, shifted_spec_repeat _ p e hP k hk]
  · intro hm
    obtain ⟨out, hout, hlen, hc⟩ := check_encrypt_ok m p a b hP hm
    rw [hout]
    show check out (spec_repeat p k) = .ok (true, m)
    rw [hcheck out hlen, hc]
  · intro h2 heq
    have hl := congrArg List.length heq
    rw [length_spec_repeat] at hl
    have : 2 * p.length ≤ k * p.length := Nat.mul_le_mul_right _ h2
    omega

/-- Witness of C16 at the passwords `"K"` and `"KK"`, `m = "HI"` and the
draws 2, 3. -/
theorem repeated_password_interchangeable_witness :
    ([75] : List Nat) ≠ [] ∧ 1 ≤ 2 ∧ spec_repeat [75] 2 = [75, 75] ∧
    encrypt [72, 73] (spec_repeat [75] 2) 2 3 = encrypt [72, 73] [75] 2 3 ∧
    (∀ e, 12 ≤ e.length →
      decrypt e (spec_repeat [75] 2) = decrypt e [75] ∧
      check e (spec_repeat [75] 2) = check e [75]) ∧
    ((∀ x ∈ ([72, 73] : List Nat), x < 256) →
      (encrypt [72, 73] [75] 2 3 >>= fun e => check e (spec_repeat [75] 2))
        = .ok (true, [72, 73])) ∧
    (2 ≤ 2 → spec_repeat [75] 2 ≠ [75]) :=
  ⟨by decide, by decide, by decide,
    repeated_password_interchangeable [72, 73] [75] 2 2 3 (by decide) (by decide)⟩

/-! ## Lemmas on the states a shift loop passes through -/

theorem shiftLoop_prefix (op : Nat → Nat → Nat) (P : List Nat) (hP : 0 < P.length)
    (buf : List Nat) (i n t : Nat) (ht : t ≤ n) (hn : i + n ≤ buf.length) :
    shiftLoop op P t buf i (i % P.length) = .ok (shifted op P buf i t, (i + t) % P.length) ∧
    shiftLoop op P n buf i (i % P.length) =
      shiftLoop op P (n - t) (shifted op P buf i t) (i + t) ((i + t) % P.length) := by
  have h1 := shiftLoop_eq op P hP t buf i (by omega)
  refine ⟨h1, ?_⟩
  have h2 := shiftLoop_split op P t (n - t) buf i (i % P.length)
  rw [show t + (n - t) = n by omega, h1] at h2
  exact h2

/-- C17. Index safety of the password counter: for every non-empty password
`p`, a shift loop started with `i = 0`, `passwordIndex = 0` (the loops of
`encrypt` and `decrypt`, the header loop of `check`) reaches the start of
iteration `t` with `passwordIndex = t mod len(p)`, and the payload loop of
`check`, started after the header loop, reaches the start of iteration
`12 + t` with `passwordIndex = (12 + t) mod len(p)`; the counter is below
`len(p)` and the buffer index below the size of the buffer, so every read of
`PASSWORD[passwordIndex]` is in bounds. For messages of at least 12 bytes the
three header reads of `check` and the drop of 12 bytes are in bounds too:
`encrypt`, `decrypt` and `check` end without an out-of-range access. -/
theorem passwordIndex_in_bounds (p : List Nat) (hp : p ≠ []) :
    (∀ (op : Nat → Nat → Nat) (buf : List Nat) (n t : Nat), t ≤ n → n ≤ buf.length →
      ∃ b, shiftLoop op p t buf 0 0 = .ok (b, t % p.length) ∧
        shiftLoop op p n buf 0 0 = shiftLoop op p (n - t) b t (t % p.length) ∧
        t % p.length < p.length ∧ (t < n → t < b.length)) ∧
    (∀ e : List Nat, 12 ≤ e.length →
      ∃ h, shiftLoop subChar p 12 e 0 0 = .ok (h, 12 % p.length) ∧
        (∃ A B C, readUInt h 0 = .ok A ∧ readUInt h 4 = .ok B ∧ readUInt h 8 = .ok C) ∧
        ∀ t, t ≤ e.length - 12 →
          ∃ b, shiftLoop subChar p t h 12 (12 % p.length) = .ok (b, (12 + t) % p.length) ∧
            shiftLoop subChar p (e.length - 12) h 12 (12 % p.length)
              = shiftLoop subChar p (e.length - 12 - t) b (12 + t) ((12 + t) % p.length) ∧
            (12 + t) % p.length < p.length ∧ (t < e.length - 12 → 12 + t < b.length) ∧
            (t = e.length - 12 → ∃ x, dropHeader b = .ok x)) ∧
    (∀ (m : List Nat) (a b : Nat), ∃ out, encrypt m p a b = .ok out) ∧
    (∀ e : List Nat, 12 ≤ e.length →
      (∃ x, decrypt e p = .ok x) ∧ (∃ r, check e p = .ok r)) := by
  have hP : 0 < p.length := List.length_pos.mpr hp
  refine ⟨?_, ?_, ?_, ?_⟩
  · intro op buf n t ht hn
    obtain ⟨h1, h2⟩ := shiftLoop_prefix op p hP buf 0 n t ht (by omega)
    rw [Nat.zero_mod, Nat.zero_add] at h1 h2
    exact ⟨_, h1, h2, Nat.mod_lt _ hP, fun h => by rw [length_shifted]; omega⟩
  · intro e he
    refine ⟨_, shiftLoop_zero_eq subChar p hP 12 e he, ?_, ?_⟩
    · have hr : ∀ off, off + 4 ≤ 12 → readUInt (shifted subChar p e 0 12) off
          = .ok (uintAt (shifted subChar p e 0 12) off) := by
        intro off hoff
        simp only [readUInt, length_shifted]
        rw [if_pos (by omega)]
      exact ⟨_, _, _, hr 0 (by omega), hr 4 (by omega), hr 8 (by omega)⟩
    · intro t ht
      obtain ⟨h1, h2⟩ := shiftLoop_prefix subChar p hP (shifted subChar p e 0 12) 12
        (e.length - 12) t ht (by rw [length_shifted]; omega)
      refine ⟨_, h1, h2, Nat.mod_lt _ hP, fun h => by simp only [length_shifted]; omega, ?_⟩
      intro _
      exact ⟨_, by simp only [dropHeader, length_shifted]; rw [if_pos he]⟩
  · intro m a b
    exact ⟨_, encrypt_eq m p a b hP⟩
  · intro e he
    refine ⟨⟨_, decrypt_eq e p hP he⟩, ?_⟩
    by_cases hv : spec_headerValid e p
    · exact ⟨_, check_of_valid e p hP he hv⟩
    · exact ⟨_, check_of_not_valid e p hP he hv⟩

/-- Witness of C17 at the password `"AB"`. -/
theorem passwordIndex_in_bounds_witness :
    ([65, 66] : List Nat) ≠ [] ∧
    ((∀ (op : Nat → Nat → Nat) (buf : List Nat) (n t : Nat), t ≤ n → n ≤ buf.length →
      ∃ b, shiftLoop op [65, 66] t buf 0 0 = .ok (b, t % ([65, 66] : List Nat).length) ∧
        shiftLoop op [65, 66] n buf 0 0
          = shiftLoop op [65, 66] (n - t) b t (t % ([65, 66] : List Nat).length) ∧
        t % ([65, 66] : List Nat).length < ([65, 66] : List Nat).length ∧
        (t < n → t < b.length)) ∧
    (∀ e : List Nat, 12 ≤ e.length →
      ∃ h, shiftLoop subChar [65, 66] 12 e 0 0
          = .ok (h, 12 % ([65, 66] : List Nat).length) ∧
        (∃ A B C, readUInt h 0 = .ok A ∧ readUInt h 4 = .ok B ∧ readUInt h 8 = .ok C) ∧
        ∀ t, t ≤ e.length - 12 →
          ∃ b, shiftLoop subChar [65, 66] t h 12 (12 % ([65, 66] : List Nat).length)
              = .ok (b, (12 + t) % ([65, 66] : List Nat).length) ∧
            shiftLoop subChar [65, 66] (e.length - 12) h 12
                (12 % ([65, 66] : List Nat).length)
              = shiftLoop subChar [65, 66] (e.length - 12 - t) b (12 + t)
                ((12 + t) % ([65, 66] : List Nat).length) ∧
            (12 + t) % ([65, 66] : List Nat).length < ([65, 66] : List Nat).length ∧
            (t < e.length - 12 → 12 + t < b.length) ∧
            (t = e.length - 12 → ∃ x, dropHeader b = .ok x)) ∧
    (∀ (m : List Nat) (a b : Nat), ∃ out, encrypt m [65, 66] a b = .ok out) ∧
    (∀ e : List Nat, 12 ≤ e.length →
      (∃ x, decrypt e [65, 66] = .ok x) ∧ (∃ r, check e [65, 66] = .ok r))) :=
  ⟨by decide, passwordIndex_in_bounds [65, 66] (by decide)⟩

end SimpleEncryption
